import Mathlib

/-!
# Verification of the appimage-finder extraction/filter core

A shallow embedding of the Rust sources of `appimage-finder`
(`src/filter.rs`, `src/extractor.rs`, `src/model.rs`, `src/cli.rs`)
together with theorems settling the specification claims.

Modelling conventions:
* Rust `&str`/`String` values are Lean `String`s; character-level work is
  done on `String.data : List Char`.
* `str::to_lowercase` is modelled by per-character `Char.toLower`
  (faithful on ASCII, which is the character set of every token,
  keyword and suffix the program compares against).
* The regexes in `filter.rs` are implemented directly as leftmost-match
  scanners over `List Char` with the greedy semantics of the `regex`
  crate (each `\d+` is maximal-munch; since every digit group is
  followed by a non-digit requirement, no backtracking into a `\d+` can
  ever succeed, so maximal munch is exact).
* `chrono::NaiveDateTime` values are encoded as a single `Nat` through a
  strictly monotone mixed-radix encoding of
  `(year, month, day, hour, minute, second)`, so chronological order is
  `Nat` order.  `NaiveDateTime::parse_from_str` with the fixed wire
  format `%Y-%m-%dT%H:%M:%SZ` is modelled for four-digit years with the
  usual Gregorian validity checks.
* Rust `HashMap` iteration order is unspecified; the embedding keeps
  first-insertion order (an association list updated in place), which
  fixes one deterministic representative.  All claims about the
  deduplicator are order-insensitive, and the theorems state them
  through this representative.
-/

namespace AppimageFinder

/-- `pat.isPrefixOf l` asserted at every suffix: Rust `str::contains`
(substring search) on character lists. -/
def containsL (pat : List Char) : List Char → Bool
  | [] => pat.isPrefixOf []
  | c :: t => pat.isPrefixOf (c :: t) || containsL pat t

/-- Rust `str::starts_with` on character lists. -/
def startsWithL (l pre : List Char) : Bool := pre.isPrefixOf l

/-- Rust `str::ends_with` on character lists. -/
def endsWithL (l suf : List Char) : Bool := suf.reverse.isPrefixOf l.reverse

/-- Rust `str::to_lowercase`, modelled per character (ASCII-faithful). -/
def lowerL (l : List Char) : List Char := l.map Char.toLower

/-- The three CLI architecture filter modes (`cli.rs`, enum `Arch`). -/
inductive Arch where
  | X86_64
  | Aarch64
  | All
deriving DecidableEq, Repr

/-- One attached file of a release, as read from the wire JSON: the code
accesses only `name` and `browser_download_url`, each of which may be
missing (`asset.get("name").and_then(as_str)`). -/
structure Asset where
  name : Option String
  browser_download_url : Option String
deriving DecidableEq, Repr

/-- `asset.get("name").and_then(|v| v.as_str()).unwrap_or("")`. -/
def assetName (a : Asset) : String := a.name.getD ""

/-- The x86 token family of `extract_architecture`
(regex `(x86_64|x86-64|amd64|64bit|x64|x86)`). -/
def x86Tokens : List String := ["x86_64", "x86-64", "amd64", "64bit", "x64", "x86"]

/-- The arm token family of `extract_architecture`
(regex `(aarch64|arm64|ARM64)`; the alternation is case-sensitive). -/
def armTokens : List String := ["aarch64", "arm64", "ARM64"]

/-- `filter.rs::extract_architecture`: `is_match` of an alternation of
literal tokens is substring containment of some token; x86 is tested
first. -/
def extract_architecture (filename : String) : Option String :=
  if x86Tokens.any (fun t => containsL t.data filename.data) then
    some "x86_64"
  else if armTokens.any (fun t => containsL t.data filename.data) then
    some "aarch64"
  else
    none

/-- Match of `(\d+)\.(\d+)\.(\d+)(?:\.(\d+))?` anchored at the head of
`l`, returning the four captured groups normalized with `"0"` for a
missing fourth group and joined with dots — exactly the string
`extract_version_4digit` builds from a successful capture.  Each `\d+`
is maximal munch (`takeWhile isDigit`); a digit group followed by `\.`
never backtracks because a digit is not a dot. -/
def matchV4At (l : List Char) : Option String :=
  let d1 := l.takeWhile Char.isDigit
  if d1.isEmpty then none else
  match l.dropWhile Char.isDigit with
  | '.' :: r2 =>
    let d2 := r2.takeWhile Char.isDigit
    if d2.isEmpty then none else
    match r2.dropWhile Char.isDigit with
    | '.' :: r4 =>
      let d3 := r4.takeWhile Char.isDigit
      if d3.isEmpty then none else
      let d4 : List Char :=
        match r4.dropWhile Char.isDigit with
        | '.' :: r6 =>
          let g := r6.takeWhile Char.isDigit
          if g.isEmpty then ['0'] else g
        | _ => ['0']
      some (d1 ++ '.' :: d2 ++ '.' :: d3 ++ '.' :: d4).asString
    | _ => none
  | _ => none

/-- Leftmost match of the four-digit-group version regex: try every
start position left to right. -/
def findV4 : List Char → Option String
  | [] => none
  | c :: t =>
    match matchV4At (c :: t) with
    | some v => some v
    | none => findV4 t

/-- `filter.rs::extract_version_4digit`: first capture from the tag if
it matches, else from the filename, else the `"1.0.0.0"` fallback. -/
def extract_version_4digit (tag filename : Option String) : String :=
  match tag.bind (fun s => findV4 s.data) with
  | some v => v
  | none =>
    match filename.bind (fun s => findV4 s.data) with
    | some v => v
    | none => "1.0.0.0"

/-- `filter.rs::get_package_name`: lowercase, `splitn(2, '/')`, and
format as `io.github.<owner>.<repo>` (a missing second part is `""`). -/
def get_package_name (repo : String) : String :=
  let repoLower := lowerL repo.data
  let owner := repoLower.takeWhile (fun c => c ≠ '/')
  let repoName : List Char :=
    match repoLower.dropWhile (fun c => c ≠ '/') with
    | _ :: rest => rest
    | [] => []
  "io.github." ++ owner.asString ++ "." ++ repoName.asString

/-- Greedy `(?:\.(\d+))*` at the head of the list: the consumed
characters (possibly none).  Structural recursion on a fuel bound; each
iteration consumes at least the `'.'`, so `l.length` fuel is always
enough. -/
def looseTailGo : Nat → List Char → List Char
  | 0, _ => []
  | fuel + 1, l =>
    match l with
    | '.' :: r =>
      let d := r.takeWhile Char.isDigit
      if d.isEmpty then []
      else '.' :: d ++ looseTailGo fuel (r.dropWhile Char.isDigit)
    | _ => []

/-- Greedy `(?:\.(\d+))*` at the head of `l`. -/
def looseTail (l : List Char) : List Char := looseTailGo l.length l

/-- Capture group of `(\d+\.\d+(?:\.\d+)*)` anchored at the head of
`l`. -/
def looseCoreAt (l : List Char) : Option (List Char) :=
  let d1 := l.takeWhile Char.isDigit
  if d1.isEmpty then none else
  match l.dropWhile Char.isDigit with
  | '.' :: r2 =>
    let d2 := r2.takeWhile Char.isDigit
    if d2.isEmpty then none
    else some (d1 ++ '.' :: d2 ++ looseTail (r2.dropWhile Char.isDigit))
  | _ => none

/-- Match of `[-_]?v?(\d+\.\d+(?:\.\d+)*)` anchored at position `l`,
returning capture group 1.  Each alternative of the core starts with a
digit, so once an optional prefix character has been consumed the
backtracking variants that give it back can never succeed and are
omitted. -/
def looseAt (l : List Char) : Option (List Char) :=
  match l with
  | '-' :: r | '_' :: r =>
    (match r with
     | 'v' :: r2 => looseCoreAt r2
     | _ => looseCoreAt r)
  | 'v' :: r => looseCoreAt r
  | _ => looseCoreAt l

/-- Leftmost match of the loose version regex. -/
def findLoose : List Char → Option (List Char)
  | [] => none
  | c :: t =>
    match looseAt (c :: t) with
    | some v => some v
    | none => findLoose t

/-- `filter.rs::extract_version_from_filename`. -/
def extract_version_from_filename (filename : String) : Option String :=
  (findLoose filename.data).map List.asString

/-- The fixed keyword list of `is_continuous_release` (the misspelling
`continous` is in the source). -/
def continuousKeywords : List String :=
  ["continuous", "continous", "latest", "nightly", "daily", "current"]

/-- Number of distinct loose version tokens among the accepted assets:
the `HashSet` insertion loop of `is_continuous_release`, whose final
`len()` is the number of distinct extracted versions. -/
def distinctVersionCount (appimages : List Asset) : Nat :=
  (((appimages.filterMap Asset.name).filterMap
      extract_version_from_filename).dedup).length

/-- `filter.rs::is_continuous_release`. -/
def is_continuous_release (releaseName : String) (appimages : List Asset) : Bool :=
  if continuousKeywords.any
      (fun kw => containsL kw.data (lowerL releaseName.data)) then
    true
  else
    decide (3 ≤ distinctVersionCount appimages)

/-- The recognized checksum suffixes of `filter_appimages`. -/
def checksumSuffixes : List String :=
  [".sha256sum", ".md5", ".sha256", ".sha512", ".md5sum"]

/-- The per-asset keep decision inside the `filter_appimages` loop:
`.AppImage` files are kept according to the architecture mode;
otherwise, with checksum inclusion on, a checksum-suffixed file is kept
when some sibling whose name starts with the checksum file's basename
(the portion before its first `.`) is an `.AppImage`. -/
def keepAsset (assets : List Asset) (includeChecksums : Bool) (target : Arch)
    (a : Asset) : Bool :=
  let name := assetName a
  if endsWithL name.data ".AppImage".data then
    match target with
    | Arch.All => true
    | Arch.X86_64 =>
      extract_architecture name == some "x86_64"
        || (extract_architecture name).isNone
    | Arch.Aarch64 => extract_architecture name == some "aarch64"
  else if includeChecksums
      && checksumSuffixes.any (fun suf => endsWithL name.data suf.data) then
    let baseName := name.data.takeWhile (fun c => c ≠ '.')
    assets.any (fun b =>
      startsWithL (assetName b).data baseName
        && endsWithL (assetName b).data ".AppImage".data)
  else
    false

/-- `filter.rs::filter_appimages`: the source's push-loop is a filter of
the input list, order preserved. -/
def filter_appimages (assets : List Asset) (includeChecksums : Bool)
    (target : Arch) : List Asset :=
  assets.filter (keepAsset assets includeChecksums target)

/-- `model.rs::AppImageRelease`. -/
structure AppImageRelease where
  repo : String
  release_name : Option String
  tag_name : Option String
  published_at : String
  appimage_name : String
  download_url : String
  architecture : Option String
  package_name : String
  version : String
deriving DecidableEq, Repr

/-- Strictly monotone mixed-radix encoding of a Gregorian datetime; on
valid field ranges (`month ≤ 12 < 13`, `day ≤ 31 < 32`, `hour < 24`,
`minute, second < 60`) it orders datetimes chronologically. -/
def dtEncode (y mo d h mi s : Nat) : Nat :=
  ((((y * 13 + mo) * 32 + d) * 24 + h) * 60 + mi) * 60 + s

/-- Gregorian leap year test. -/
def isLeapYear (y : Nat) : Bool :=
  y % 4 == 0 && (y % 100 != 0 || y % 400 == 0)

/-- Days in a Gregorian month. -/
def daysInMonth (y mo : Nat) : Nat :=
  if mo = 2 then (if isLeapYear y then 29 else 28)
  else if mo = 4 ∨ mo = 6 ∨ mo = 9 ∨ mo = 11 then 30
  else 31

/-- Numeric value of a decimal digit character. -/
def digitVal (c : Char) : Nat := c.toNat - '0'.toNat

/-- `chrono::NaiveDateTime::parse_from_str` with the fixed wire format
`%Y-%m-%dT%H:%M:%SZ`, modelled for four-digit years: the string must be
exactly `YYYY-MM-DDTHH:MM:SSZ` with valid Gregorian field ranges.
Returns the encoded datetime, or `none` on any mismatch. -/
def parseWireDT (s : String) : Option Nat :=
  match s.data with
  | [y1, y2, y3, y4, '-', mo1, mo2, '-', d1, d2, 'T',
     h1, h2, ':', mi1, mi2, ':', s1, s2, 'Z'] =>
    if [y1, y2, y3, y4, mo1, mo2, d1, d2, h1, h2, mi1, mi2, s1, s2].all
        Char.isDigit then
      let y := ((digitVal y1 * 10 + digitVal y2) * 10 + digitVal y3) * 10
                 + digitVal y4
      let mo := digitVal mo1 * 10 + digitVal mo2
      let d := digitVal d1 * 10 + digitVal d2
      let h := digitVal h1 * 10 + digitVal h2
      let mi := digitVal mi1 * 10 + digitVal mi2
      let se := digitVal s1 * 10 + digitVal s2
      if 1 ≤ mo ∧ mo ≤ 12 ∧ 1 ≤ d ∧ d ≤ daysInMonth y mo
          ∧ h < 24 ∧ mi < 60 ∧ se < 60 then
        some (dtEncode y mo d h mi se)
      else none
    else none
  | _ => none

/-- The sentinel `2015-01-01 00:00:00` substituted by
`keep_latest_versions` when `published_at` fails to parse. -/
def sentinelDT : Nat := dtEncode 2015 1 1 0 0 0

/-- Parse a timestamp string as `keep_latest_versions` does:
`parse_from_str(..).unwrap_or(2015-01-01T00:00:00)`. -/
def dtStr (s : String) : Nat := (parseWireDT s).getD sentinelDT

/-- The parsed `published_at` of an entity, sentinel on failure. -/
def dtOf (r : AppImageRelease) : Nat := dtStr r.published_at

/-- The deduplication key of `keep_latest_versions`:
`(item.repo, item.architecture)`. -/
def klvKey (r : AppImageRelease) : String × Option String :=
  (r.repo, r.architecture)

/-- One `HashMap` insertion step of `keep_latest_versions`: update the
entry at the item's key when the item's timestamp is strictly greater
(or the key is new), modelled on an association list updated in place,
new keys appended (first-insertion order stands in for the `HashMap`'s
unspecified iteration order). -/
def insKLV :
    List ((String × Option String) × AppImageRelease) → AppImageRelease →
      List ((String × Option String) × AppImageRelease)
  | [], item => [(klvKey item, item)]
  | (k, old) :: rest, item =>
    if k = klvKey item then
      (if dtOf old < dtOf item then (k, item) else (k, old)) :: rest
    else
      (k, old) :: insKLV rest item

/-- `filter.rs::keep_latest_versions`: fold every entity through the map
and return the stored values. -/
def keep_latest_versions (results : List AppImageRelease) :
    List AppImageRelease :=
  (results.foldl insKLV []).map Prod.snd

/-- The `payload.release` object of a release event (`assets` is `none`
when missing or not an array). -/
structure Release where
  name : Option String
  tag_name : Option String
  published_at : Option String
  assets : Option (List Asset)
deriving DecidableEq, Repr

/-- One release-event wire record, with the fields `process_file` reads
(`payload.release` is flattened into the `release` field).  `repo.name`
is unconditionally unwrapped by the source, so it is modelled as
present. -/
structure Event where
  type : Option String
  created_at : Option String
  repo_name : String
  release : Option Release
deriving DecidableEq, Repr

/-- The per-event body of `extractor.rs::process_file` (one decoded
line): type check, window check on `created_at` (parse failure falls
back to `start_dt`, as `unwrap_or(start_dt)` in the source), release
and assets presence, asset filtering, continuous-release exclusion, and
entity construction for each accepted asset. -/
def processEvent (startDt endDt : Nat) (includeChecksums : Bool)
    (target : Arch) (ev : Event) : List AppImageRelease :=
  if ev.type ≠ some "ReleaseEvent" then [] else
  let createdAt := ev.created_at.getD ""
  let dt := (parseWireDT createdAt).getD startDt
  if dt < startDt ∨ endDt < dt then [] else
  match ev.release with
  | none => []
  | some rel =>
    match rel.assets with
    | none => []
    | some assets =>
      let appimages := filter_appimages assets includeChecksums target
      if appimages.isEmpty then [] else
      let releaseName := rel.name.getD ""
      if is_continuous_release releaseName appimages then [] else
      appimages.map (fun asset =>
        let arch := extract_architecture (assetName asset)
        let arch :=
          if (target = Arch.All ∨ target = Arch.X86_64) ∧ arch = none then
            some "x86_64"
          else arch
        { repo := ev.repo_name
          release_name := rel.name
          tag_name := rel.tag_name
          published_at := rel.published_at.getD ""
          appimage_name := assetName asset
          download_url := asset.browser_download_url.getD ""
          architecture := arch
          package_name := get_package_name ev.repo_name
          version := extract_version_4digit rel.tag_name asset.name })

/-- `extractor.rs::process_file` on one decoded file: push the entities
of every event line onto the accumulated results, then replace the
accumulator by `keep_latest_versions` of the whole collection. -/
def processFile (startDt endDt : Nat) (includeChecksums : Bool)
    (target : Arch) (events : List Event)
    (results : List AppImageRelease) : List AppImageRelease :=
  keep_latest_versions
    (results ++ events.flatMap (processEvent startDt endDt includeChecksums target))

/-- The `main.rs` driver loop over the downloaded files: fold
`process_file` over each file's event list, starting from an empty
result collection. -/
def runPipeline (startDt endDt : Nat) (includeChecksums : Bool)
    (target : Arch) (files : List (List Event)) : List AppImageRelease :=
  files.foldl
    (fun acc events => processFile startDt endDt includeChecksums target events acc)
    []

/-! ## Specification-side definitions

The following definitions transcribe the *claims'* wording, to be
compared with the embedded source functions. -/

/-- Claim-side architecture-mode admission for a `.AppImage` file
(`all`: any; `x86_64`: inferred x86_64 or unknown; `aarch64`: exactly
aarch64). -/
def archOk (target : Arch) (arch : Option String) : Bool :=
  match target with
  | Arch.All => true
  | Arch.X86_64 => arch == some "x86_64" || arch == none
  | Arch.Aarch64 => arch == some "aarch64"

/-- Claim-side keep predicate for `filter_appimages`: a `.AppImage`
whose inferred architecture satisfies the mode, or (with checksum
inclusion) a checksum-suffixed file some sibling of which starts with
its basename and ends with `.AppImage`. -/
def claimKeep (assets : List Asset) (includeChecksums : Bool) (target : Arch)
    (a : Asset) : Bool :=
  let name := assetName a
  (endsWithL name.data ".AppImage".data
      && archOk target (extract_architecture name))
    || (includeChecksums
        && checksumSuffixes.any (fun suf => endsWithL name.data suf.data)
        && assets.any (fun b =>
            startsWithL (assetName b).data (name.data.takeWhile (fun c => c ≠ '.'))
              && endsWithL (assetName b).data ".AppImage".data))

/-- The deduplication keys of a result list in first-occurrence order. -/
def firstKeys (results : List AppImageRelease) : List (String × Option String) :=
  results.foldl
    (fun ks r => if klvKey r ∈ ks then ks else ks ++ [klvKey r]) []

/-- Claim-side single comparison step: a candidate replaces the stored
entity only when its parsed timestamp is strictly greater (an empty
slot is always filled), so equal timestamps keep the first-inserted
entity. -/
def stepOne (acc : Option AppImageRelease) (r : AppImageRelease) :
    Option AppImageRelease :=
  match acc with
  | none => some r
  | some old => if dtOf old < dtOf r then some r else some old

/-- Claim-side winner for one key: fold the collection, applying
`stepOne` to the entities carrying that key. -/
def latestFor (k : String × Option String)
    (results : List AppImageRelease) : Option AppImageRelease :=
  results.foldl (fun acc r => if klvKey r = k then stepOne acc r else acc) none

/-! ## Concrete fixtures -/

/-- Window start used by the concrete runs: `2024-01-01T00:00:00`. -/
def windowStart : Nat := dtEncode 2024 1 1 0 0 0

/-- Window end used by the concrete runs: `2024-12-31T23:59:59`. -/
def windowEnd : Nat := dtEncode 2024 12 31 23 59 59

/-- A release event whose `created_at` field is missing entirely, with
one plainly acceptable `.AppImage` asset. -/
def evMissingTimestamp : Event :=
  { type := some "ReleaseEvent"
    created_at := none
    repo_name := "Owner/Repo"
    release := some
      { name := some "Release one"
        tag_name := some "r1"
        published_at := some "2024-05-01T10:00:00Z"
        assets := some [{ name := some "app-1.2.3-x86_64.AppImage"
                          browser_download_url := some "u" }] } }

/-- The same event with an unparseable `created_at`. -/
def evBadTimestamp : Event :=
  { evMissingTimestamp with created_at := some "not-a-date" }

/-- A release event carrying an aarch64 binary and its checksum
companion. -/
def evChecksumAarch64 : Event :=
  { type := some "ReleaseEvent"
    created_at := some "2024-05-01T10:00:00Z"
    repo_name := "Owner/Repo"
    release := some
      { name := some "Release one"
        tag_name := some "r1"
        published_at := some "2024-05-01T10:00:00Z"
        assets := some [{ name := some "tool-aarch64.AppImage"
                          browser_download_url := some "u1" },
                        { name := some "tool.sha256"
                          browser_download_url := some "u2" }] } }

/-! ## Claim theorems -/

/-- **C1** (code_bug evaluation).  An event record whose `created_at`
is missing, and one whose `created_at` fails to parse, are both inside
the `[windowStart, windowEnd]` window as far as `process_file` is
concerned: the source substitutes `start_dt` for the unparseable
timestamp (`unwrap_or(start_dt)`), so the record is kept and produces an
entity — contradicting the specified window-exclusion semantics. -/
theorem c1_unparseable_created_at_is_kept :
    parseWireDT "" = none ∧ parseWireDT "not-a-date" = none ∧
    (processEvent windowStart windowEnd false Arch.All evMissingTimestamp).length = 1 ∧
    (processEvent windowStart windowEnd false Arch.All evBadTimestamp).length = 1 := by
  decide

/-- **C3** (counterexample).  The package-name derivation is not
idempotent: re-applying it to its own output changes the string. -/
theorem c3_not_idempotent :
    get_package_name (get_package_name "Foo/Bar") ≠ get_package_name "Foo/Bar" := by
  decide

/-- **C3** (amended).  `get_package_name "Foo/Bar" = "io.github.foo.bar"`
(case-folded reverse-DNS form); but the derivation is not idempotent:
since the derived name contains no `/`, re-application prepends another
`io.github.` and appends a trailing dot. -/
theorem c3_package_name :
    get_package_name "Foo/Bar" = "io.github.foo.bar" ∧
    get_package_name (get_package_name "Foo/Bar") = "io.github.io.github.foo.bar." := by
  decide

/-- **C4** (counterexample).  `"linux-Arm64.AppImage"` contains `ARM64`
in mixed letter case (case-insensitively it contains `arm64`) and no
x86-family token, yet `extract_architecture` returns `none`, not
`some "aarch64"`: the arm alternation `(aarch64|arm64|ARM64)` is
case-sensitive. -/
theorem c4_mixed_case_arm64_not_matched :
    containsL (lowerL "ARM64".data) (lowerL "linux-Arm64.AppImage".data) = true ∧
    x86Tokens.any (fun t => containsL t.data "linux-Arm64.AppImage".data) = false ∧
    extract_architecture "linux-Arm64.AppImage" = none := by
  decide

/-- **C4** (amended).  `extract_architecture` is characterized by
case-sensitive containment of the literal family tokens: an x86-family
token yields `some "x86_64"` (checked first), failing that an
arm-family token — one of the exact strings `aarch64`, `arm64`, `ARM64`
(other casings such as `Arm64` match neither family) — yields
`some "aarch64"`, and a filename containing no token of either family
yields `none`. -/
theorem c4_architecture_families (name : String) :
    (extract_architecture name = some "x86_64" ↔
      ∃ t ∈ x86Tokens, containsL t.data name.data = true) ∧
    (extract_architecture name = some "aarch64" ↔
      (¬ ∃ t ∈ x86Tokens, containsL t.data name.data = true) ∧
        ∃ t ∈ armTokens, containsL t.data name.data = true) ∧
    (extract_architecture name = none ↔
      (¬ ∃ t ∈ x86Tokens, containsL t.data name.data = true) ∧
        ¬ ∃ t ∈ armTokens, containsL t.data name.data = true) := by
  unfold extract_architecture
  by_cases hx : x86Tokens.any (fun t => containsL t.data name.data) = true
  · rw [List.any_eq_true] at hx
    simp [hx]
  · rw [List.any_eq_true] at hx
    by_cases ha : armTokens.any (fun t => containsL t.data name.data) = true
    · rw [List.any_eq_true] at ha
      simp [hx, ha]
    · rw [List.any_eq_true] at ha
      simp [hx, ha]

/-- Two nonempty prefixes of the same list begin with the same
character. -/
theorem isPrefixOf_head {a b : Char} {t1 t2 l : List Char}
    (h1 : (a :: t1).isPrefixOf l = true) (h2 : (b :: t2).isPrefixOf l = true) :
    a = b := by
  cases l with
  | nil => simp [List.isPrefixOf] at h1
  | cons c l' =>
    simp only [List.isPrefixOf, Bool.and_eq_true, beq_iff_eq] at h1 h2
    exact h1.1.trans h2.1.symm

/-- A name ending in one of the checksum suffixes does not end in
`.AppImage`: the last characters differ. -/
theorem checksum_suffix_not_appimage (l : List Char)
    (h : checksumSuffixes.any (fun suf => endsWithL l suf.data) = true) :
    endsWithL l ".AppImage".data = false := by
  rw [List.any_eq_true] at h
  obtain ⟨suf, hmem, hsuf⟩ := h
  by_contra hcontra
  rw [Bool.not_eq_false] at hcontra
  have happ : ('e' :: "gamIppA.".data).isPrefixOf l.reverse = true := by
    have : ".AppImage".data.reverse = 'e' :: "gamIppA.".data := by decide
    rw [endsWithL, this] at hcontra
    exact hcontra
  simp only [checksumSuffixes, List.mem_cons, List.not_mem_nil, or_false] at hmem
  rcases hmem with h' | h' | h' | h' | h' <;> subst h'
  · have : ".sha256sum".data.reverse = 'm' :: "us652ahs.".data := by decide
    rw [endsWithL, this] at hsuf
    exact absurd (isPrefixOf_head hsuf happ) (by decide)
  · have : ".md5".data.reverse = '5' :: "dm.".data := by decide
    rw [endsWithL, this] at hsuf
    exact absurd (isPrefixOf_head hsuf happ) (by decide)
  · have : ".sha256".data.reverse = '6' :: "52ahs.".data := by decide
    rw [endsWithL, this] at hsuf
    exact absurd (isPrefixOf_head hsuf happ) (by decide)
  · have : ".sha512".data.reverse = '2' :: "15ahs.".data := by decide
    rw [endsWithL, this] at hsuf
    exact absurd (isPrefixOf_head hsuf happ) (by decide)
  · have : ".md5sum".data.reverse = 'm' :: "us5dm.".data := by decide
    rw [endsWithL, this] at hsuf
    exact absurd (isPrefixOf_head hsuf happ) (by decide)

/-- **C10** (confirmed).  With checksum inclusion enabled, a
checksum-suffixed asset whose name begins with `'.'` has the empty
string as the portion before its first `.`, and since every name starts
with the empty prefix, the asset is kept whenever *any* sibling's name
ends with `.AppImage`: the intended tie to one specific binary is
vacuous for such filenames. -/
theorem c10_dot_checksum_kept (assets : List Asset) (a : Asset) (target : Arch)
    (ha : a ∈ assets)
    (hdot : startsWithL (assetName a).data ['.'] = true)
    (hsuf : checksumSuffixes.any (fun suf => endsWithL (assetName a).data suf.data) = true)
    (hbin : assets.any (fun b => endsWithL (assetName b).data ".AppImage".data) = true) :
    a ∈ filter_appimages assets true target := by
  have hnotapp : endsWithL (assetName a).data ".AppImage".data = false :=
    checksum_suffix_not_appimage _ hsuf
  have hbase : (assetName a).data.takeWhile (fun c => c ≠ '.') = [] := by
    rw [startsWithL] at hdot
    cases hl : (assetName a).data with
    | nil => rw [hl] at hdot; simp [List.isPrefixOf] at hdot
    | cons c t =>
      rw [hl] at hdot
      simp only [List.isPrefixOf, Bool.and_eq_true, beq_iff_eq] at hdot
      rw [← hdot.1]
      simp [List.takeWhile]
  rw [filter_appimages, List.mem_filter]
  refine ⟨ha, ?_⟩
  simp only [keepAsset, hnotapp, Bool.false_eq_true, if_false]
  simp only [decide_not] at hbase
  simp [hsuf, hbase]
  rw [List.any_eq_true] at hbin
  obtain ⟨b, hb, hbend⟩ := hbin
  exact ⟨b, hb, by simp [startsWithL], hbend⟩

/-- Witness for C10 at a concrete input: `.hidden.md5` is kept next to
the unrelated binary `app.AppImage`. -/
theorem c10_dot_checksum_kept_witness :
    (⟨some ".hidden.md5", none⟩ : Asset) ∈
        [(⟨some ".hidden.md5", none⟩ : Asset), ⟨some "app.AppImage", none⟩] ∧
    (⟨some ".hidden.md5", none⟩ : Asset) ∈
      filter_appimages
        [(⟨some ".hidden.md5", none⟩ : Asset), ⟨some "app.AppImage", none⟩]
        true Arch.All :=
  ⟨by decide,
   c10_dot_checksum_kept _ _ _ (by decide) (by decide) (by decide) (by decide)⟩

/-- The single-pass keep decision of the source loop agrees pointwise
with the claim's two-group description: the branch structure differs
(`if .AppImage then … else if checksum …` versus a disjunction), and
they coincide because no name can end with both `.AppImage` and a
checksum suffix. -/
theorem keepAsset_eq_claimKeep (assets : List Asset) (inc : Bool) (target : Arch)
    (a : Asset) : keepAsset assets inc target a = claimKeep assets inc target a := by
  by_cases happ : endsWithL (assetName a).data ".AppImage".data = true
  · have hsufF : checksumSuffixes.any
        (fun suf => endsWithL (assetName a).data suf.data) = false := by
      by_contra h
      rw [Bool.not_eq_false] at h
      have := checksum_suffix_not_appimage _ h
      rw [happ] at this
      cases this
    simp only [keepAsset, claimKeep, happ, hsufF, archOk, if_true, Bool.and_false,
      Bool.false_and, Bool.or_false, Bool.true_and]
    cases target <;> cases extract_architecture (assetName a) <;> simp
  · rw [Bool.not_eq_true] at happ
    simp only [keepAsset, claimKeep, happ, Bool.false_eq_true, if_false, Bool.false_and,
      Bool.false_or]
    by_cases hc : (inc && checksumSuffixes.any
        (fun suf => endsWithL (assetName a).data suf.data)) = true
    · simp [hc, Bool.and_assoc]
    · rw [Bool.not_eq_true] at hc
      simp [hc]

/-- **C5** (confirmed).  `filter_appimages` returns, in input order,
exactly the assets admitted by the claim's description: `.AppImage`
files whose inferred architecture satisfies the mode (`all`: any;
`x86_64`: inferred x86_64 or unknown; `aarch64`: exactly aarch64),
plus — when checksum inclusion is enabled — checksum-suffixed files
some sibling of which starts with their basename (the portion before
the first `.`) and ends with `.AppImage`; a checksum file with no such
binary is not returned. -/
theorem c5_filter_appimages_characterization (assets : List Asset) (inc : Bool)
    (target : Arch) :
    filter_appimages assets inc target = assets.filter (claimKeep assets inc target) := by
  rw [filter_appimages]
  exact List.filter_congr (fun a _ => keepAsset_eq_claimKeep assets inc target a)

/-- **C6** (confirmed).  `is_continuous_release` returns true exactly
when the release name contains, case-insensitively, one of the six
keywords, or the accepted assets' filenames yield at least three
distinct loose version tokens; in particular `"v1.2.3 Nightly Build"`
is excluded regardless of its assets (it contains `nightly`). -/
theorem c6_continuous_release_characterization :
    (∀ (name : String) (assets : List Asset),
      is_continuous_release name assets = true ↔
        (∃ kw ∈ continuousKeywords, containsL kw.data (lowerL name.data) = true) ∨
          3 ≤ distinctVersionCount assets) ∧
    (∀ assets : List Asset,
      is_continuous_release "v1.2.3 Nightly Build" assets = true) := by
  constructor
  · intro name assets
    rw [is_continuous_release]
    by_cases hk : continuousKeywords.any
        (fun kw => containsL kw.data (lowerL name.data)) = true
    · rw [if_pos hk]
      rw [List.any_eq_true] at hk
      simp [hk]
    · rw [if_neg hk]
      rw [List.any_eq_true] at hk
      simp [decide_eq_true_iff, hk]
  · intro assets
    rw [is_continuous_release, if_pos (by decide)]

/-- Claim-side well-formedness of a version string: exactly four
dot-separated nonempty all-digit groups. -/
def isV4 (s : String) : Prop :=
  ∃ p1 p2 p3 p4 : List Char,
    s.data = p1 ++ '.' :: (p2 ++ '.' :: (p3 ++ '.' :: p4)) ∧
    p1 ≠ [] ∧ p2 ≠ [] ∧ p3 ≠ [] ∧ p4 ≠ [] ∧
    (∀ c ∈ p1, c.isDigit = true) ∧ (∀ c ∈ p2, c.isDigit = true) ∧
    (∀ c ∈ p3, c.isDigit = true) ∧ (∀ c ∈ p4, c.isDigit = true)

/-- `List.asString` carries its character list. -/
theorem asString_data (l : List Char) : (l.asString).data = l := rfl

/-- A list with `isEmpty = false` is not `[]`. -/
theorem ne_nil_of_not_isEmpty {l : List Char} (h : ¬ l.isEmpty = true) : l ≠ [] := by
  simpa [List.isEmpty_iff] using h

/-- Every successful anchored match of the four-group version regex is
a well-formed four-group version string. -/
theorem matchV4At_isV4 {l : List Char} {v : String} (h : matchV4At l = some v) :
    isV4 v := by
  rw [matchV4At] at h
  simp only at h
  split at h
  · exact absurd h (by simp)
  · split at h
    · split at h
      · exact absurd h (by simp)
      · split at h
        · split at h
          · exact absurd h (by simp)
          · rw [Option.some.injEq] at h
            subst h
            rename_i h1 x1 r1 hr1 h2 x2 r2 hr2 h3
            split
            · split
              · exact ⟨_, _, _, ['0'], by simp [asString_data], ne_nil_of_not_isEmpty h1,
                  ne_nil_of_not_isEmpty h2, ne_nil_of_not_isEmpty h3, by decide,
                  fun c hc => List.mem_takeWhile_imp hc,
                  fun c hc => List.mem_takeWhile_imp hc,
                  fun c hc => List.mem_takeWhile_imp hc, by decide⟩
              · rename_i hg
                exact ⟨_, _, _, _, by simp [asString_data], ne_nil_of_not_isEmpty h1,
                  ne_nil_of_not_isEmpty h2, ne_nil_of_not_isEmpty h3,
                  ne_nil_of_not_isEmpty hg,
                  fun c hc => List.mem_takeWhile_imp hc,
                  fun c hc => List.mem_takeWhile_imp hc,
                  fun c hc => List.mem_takeWhile_imp hc,
                  fun c hc => List.mem_takeWhile_imp hc⟩
            · exact ⟨_, _, _, ['0'], by simp [asString_data], ne_nil_of_not_isEmpty h1,
                ne_nil_of_not_isEmpty h2, ne_nil_of_not_isEmpty h3, by decide,
                fun c hc => List.mem_takeWhile_imp hc,
                fun c hc => List.mem_takeWhile_imp hc,
                fun c hc => List.mem_takeWhile_imp hc, by decide⟩
        · exact absurd h (by simp)
    · exact absurd h (by simp)

/-- The leftmost-match scan inherits well-formedness. -/
theorem findV4_isV4 : ∀ {l : List Char} {v : String}, findV4 l = some v → isV4 v := by
  intro l
  induction l with
  | nil => intro v h; simp [findV4] at h
  | cons c t ih =>
    intro v h
    rw [findV4] at h
    split at h
    · rename_i hm
      rw [Option.some.injEq] at h
      subst h
      exact matchV4At_isV4 hm
    · exact ih h

/-- The fallback `"1.0.0.0"` is well-formed. -/
theorem fallback_isV4 : isV4 "1.0.0.0" :=
  ⟨['1'], ['0'], ['0'], ['0'], by decide, by decide, by decide, by decide, by decide,
    by decide, by decide, by decide, by decide⟩

/-- **C2** (confirmed).  `extract_version_4digit` always returns a
string of exactly four dot-separated nonempty numeric groups — never
empty; the result is the first match from the tag when the tag matches,
else the first match from the filename, else `"1.0.0.0"` (a missing
fourth group having been normalized to `"0"` inside the match). -/
theorem c2_version_always_four_groups (tag filename : Option String) :
    isV4 (extract_version_4digit tag filename) ∧
    extract_version_4digit tag filename ≠ "" ∧
    (∀ v, tag.bind (fun s => findV4 s.data) = some v →
      extract_version_4digit tag filename = v) ∧
    (tag.bind (fun s => findV4 s.data) = none →
      ∀ v, filename.bind (fun s => findV4 s.data) = some v →
        extract_version_4digit tag filename = v) ∧
    (tag.bind (fun s => findV4 s.data) = none →
      filename.bind (fun s => findV4 s.data) = none →
        extract_version_4digit tag filename = "1.0.0.0") := by
  have h4 : isV4 (extract_version_4digit tag filename) := by
    rw [extract_version_4digit]
    split
    · rename_i v hv
      obtain ⟨s, _, hfind⟩ := Option.bind_eq_some.mp hv
      exact findV4_isV4 hfind
    · split
      · rename_i v hv
        obtain ⟨s, _, hfind⟩ := Option.bind_eq_some.mp hv
        exact findV4_isV4 hfind
      · exact fallback_isV4
  refine ⟨h4, ?_, ?_, ?_, ?_⟩
  · intro he
    obtain ⟨p1, p2, p3, p4, hdata, _⟩ := h4
    rw [he] at hdata
    simp at hdata
  · intro v hv
    rw [extract_version_4digit, hv]
  · intro hn v hv
    simp [extract_version_4digit, hn, hv]
  · intro hn hn2
    simp [extract_version_4digit, hn, hn2]

/-- Witness for C2 at a concrete input: the tag `v1.2.3` matches and is
normalized to `1.2.3.0` regardless of the filename. -/
theorem c2_version_always_four_groups_witness :
    (some "v1.2.3" : Option String).bind (fun s => findV4 s.data) = some "1.2.3.0" ∧
    extract_version_4digit (some "v1.2.3") (some "installer.AppImage") = "1.2.3.0" :=
  ⟨by decide,
   (c2_version_always_four_groups (some "v1.2.3") (some "installer.AppImage")).2.2.1
     "1.2.3.0" (by decide)⟩

/-! ## Deduplicator lemmas -/

/-- Folding one more entity on the right of `latestFor`. -/
theorem latestFor_append (k : String × Option String) (rs : List AppImageRelease)
    (r : AppImageRelease) :
    latestFor k (rs ++ [r]) =
      if klvKey r = k then stepOne (latestFor k rs) r else latestFor k rs := by
  simp [latestFor, List.foldl_append]

/-- Folding one more entity on the right of `firstKeys`. -/
theorem firstKeys_append (rs : List AppImageRelease) (r : AppImageRelease) :
    firstKeys (rs ++ [r]) =
      if klvKey r ∈ firstKeys rs then firstKeys rs
      else firstKeys rs ++ [klvKey r] := by
  simp [firstKeys, List.foldl_append]

/-- A comparison step always leaves a stored entity. -/
theorem stepOne_isSome (acc : Option AppImageRelease) (r : AppImageRelease) :
    (stepOne acc r).isSome = true := by
  cases acc <;> simp [stepOne]
  split <;> simp

/-- The winner for a key carries that key and comes from the input. -/
theorem latestFor_key_mem :
    ∀ {rs : List AppImageRelease} {k : String × Option String} {v : AppImageRelease},
      latestFor k rs = some v → klvKey v = k ∧ v ∈ rs := by
  intro rs
  induction rs using List.reverseRecOn with
  | nil => intro k v h; simp [latestFor] at h
  | append_singleton rs r ih =>
    intro k v h
    rw [latestFor_append] at h
    by_cases hkr : klvKey r = k
    · rw [if_pos hkr] at h
      rcases hacc : latestFor k rs with _ | old
      · rw [hacc, stepOne] at h
        simp only [Option.some.injEq] at h
        subst h
        exact ⟨hkr, by simp⟩
      · rw [hacc, stepOne] at h
        split at h <;> simp only [Option.some.injEq] at h <;> subst h
        · exact ⟨hkr, by simp⟩
        · obtain ⟨hk, hm⟩ := ih hacc
          exact ⟨hk, by simp [hm]⟩
    · rw [if_neg hkr] at h
      obtain ⟨hk, hm⟩ := ih h
      exact ⟨hk, by simp [hm]⟩

/-- A key has been seen exactly when it has a winner. -/
theorem mem_firstKeys_iff (k : String × Option String) :
    ∀ rs : List AppImageRelease, k ∈ firstKeys rs ↔ (latestFor k rs).isSome = true := by
  intro rs
  induction rs using List.reverseRecOn with
  | nil => simp [firstKeys, latestFor]
  | append_singleton rs r ih =>
    rw [firstKeys_append, latestFor_append]
    by_cases hkr : klvKey r = k
    · rw [if_pos hkr, stepOne_isSome]
      by_cases hmem : klvKey r ∈ firstKeys rs
      · rw [if_pos hmem]
        subst hkr
        simp [hmem]
      · rw [if_neg hmem]
        subst hkr
        simp
    · rw [if_neg hkr]
      by_cases hmem : klvKey r ∈ firstKeys rs
      · rw [if_pos hmem]
        exact ih
      · rw [if_neg hmem]
        rw [List.mem_append]
        simp only [List.mem_singleton]
        constructor
        · rintro (h | h)
          · exact ih.mp h
          · exact absurd h.symm hkr
        · intro h
          exact Or.inl (ih.mpr h)

/-- The seen keys are pairwise distinct. -/
theorem firstKeys_nodup (rs : List AppImageRelease) : (firstKeys rs).Nodup := by
  induction rs using List.reverseRecOn with
  | nil => simp [firstKeys]
  | append_singleton rs r ih =>
    rw [firstKeys_append]
    by_cases hmem : klvKey r ∈ firstKeys rs
    · rw [if_pos hmem]; exact ih
    · rw [if_neg hmem]
      simp [List.nodup_append, ih, hmem]

/-- One `HashMap` insertion on a map in spec form (keyed winners over a
distinct key list): either the stored winner of the item's key takes a
comparison step, or a fresh entry is appended. -/
theorem insKLV_spec (r : AppImageRelease) :
    ∀ (K : List (String × Option String)) (g : String × Option String → Option AppImageRelease),
      (∀ k ∈ K, (g k).isSome = true) → K.Nodup →
      insKLV (K.filterMap (fun k => (g k).map (fun v => (k, v)))) r =
        (if klvKey r ∈ K then
          K.filterMap (fun k =>
            ((if k = klvKey r then stepOne (g k) r else g k)).map (fun v => (k, v)))
        else
          K.filterMap (fun k => (g k).map (fun v => (k, v))) ++ [(klvKey r, r)]) := by
  intro K
  induction K with
  | nil =>
    intro g _ _
    rw [List.filterMap_nil, insKLV, if_neg (List.not_mem_nil _), List.nil_append]
  | cons k K ih =>
    intro g hs hnd
    obtain ⟨v, hv⟩ := Option.isSome_iff_exists.mp (hs k (List.mem_cons_self k K))
    rw [List.filterMap_cons, hv]
    simp only [Option.map_some']
    rw [insKLV]
    by_cases hkr : k = klvKey r
    · rw [if_pos hkr]
      have hmem : klvKey r ∈ k :: K := by rw [← hkr]; exact List.mem_cons_self k K
      rw [if_pos hmem, List.filterMap_cons, if_pos hkr, hv]
      have htail : K.filterMap (fun k =>
            ((if k = klvKey r then stepOne (g k) r else g k)).map (fun v => (k, v))) =
          K.filterMap (fun k => (g k).map (fun v => (k, v))) := by
        apply List.filterMap_congr
        intro a ha
        have : a ≠ klvKey r := by
          rw [← hkr]
          exact fun h => (List.nodup_cons.mp hnd).1 (h ▸ ha)
        rw [if_neg this]
      rw [htail]
      simp only [stepOne]
      split <;> rfl
    · rw [if_neg hkr]
      have hrec := ih (fun k => g k) (fun a ha => hs a (List.mem_cons_of_mem k ha))
        (List.nodup_cons.mp hnd).2
      by_cases hmem : klvKey r ∈ K
      · have hmem2 : klvKey r ∈ k :: K := List.mem_cons_of_mem k hmem
        rw [if_pos hmem2, hrec, if_pos hmem, List.filterMap_cons, if_neg hkr, hv]
        rfl
      · have hmem2 : klvKey r ∉ k :: K := by
          rw [List.mem_cons]
          rintro (h | h)
          · exact hkr h.symm
          · exact hmem h
        rw [if_neg hmem2, hrec, if_neg hmem]
        simp

/-- The association list built by the `keep_latest_versions` fold is the
map of per-key winners over the seen keys. -/
theorem state_spec (rs : List AppImageRelease) :
    rs.foldl insKLV [] =
      (firstKeys rs).filterMap (fun k => (latestFor k rs).map (fun v => (k, v))) := by
  induction rs using List.reverseRecOn with
  | nil => rfl
  | append_singleton rs r ih =>
    rw [List.foldl_append, List.foldl_cons, List.foldl_nil, ih]
    rw [insKLV_spec r (firstKeys rs) (fun k => latestFor k rs)
      (fun k hk => (mem_firstKeys_iff k rs).mp hk) (firstKeys_nodup rs)]
    rw [firstKeys_append]
    by_cases hmem : klvKey r ∈ firstKeys rs
    · rw [if_pos hmem, if_pos hmem]
      apply List.filterMap_congr
      intro a _
      rw [latestFor_append]
      by_cases hak : a = klvKey r
      · rw [if_pos hak, if_pos (hak ▸ rfl : klvKey r = a)]
      · rw [if_neg hak, if_neg (fun h => hak h.symm)]
    · rw [if_neg hmem, if_neg hmem, List.filterMap_append]
      congr 1
      · apply List.filterMap_congr
        intro a ha
        rw [latestFor_append]
        have hak : ¬ klvKey r = a := fun h => hmem (h ▸ ha)
        rw [if_neg hak]
      · have hnone : latestFor (klvKey r) rs = none := by
          rcases h : latestFor (klvKey r) rs with _ | v
          · rfl
          · exact absurd ((mem_firstKeys_iff _ rs).mpr (by simp [h])) hmem
        rw [List.filterMap_cons, List.filterMap_nil, latestFor_append, if_pos rfl,
          hnone, stepOne]
        rfl

/-- `keep_latest_versions` is the per-key winner for every seen key, in
first-occurrence order. -/
theorem klv_spec (rs : List AppImageRelease) :
    keep_latest_versions rs = (firstKeys rs).filterMap (fun k => latestFor k rs) := by
  rw [keep_latest_versions, state_spec, List.map_filterMap]
  apply List.filterMap_congr
  intro a _
  rcases latestFor a rs with _ | v <;> rfl

/-- Mapping each winner back to its key recovers the key list. -/
theorem map_klvKey_filterMap (rs : List AppImageRelease) :
    ∀ K : List (String × Option String),
      (∀ k ∈ K, (latestFor k rs).isSome = true) →
      (K.filterMap (fun k => latestFor k rs)).map klvKey = K := by
  intro K
  induction K with
  | nil => simp
  | cons k K ih =>
    intro h
    obtain ⟨v, hv⟩ := Option.isSome_iff_exists.mp (h k (List.mem_cons_self k K))
    rw [List.filterMap_cons, hv]
    show klvKey v :: (K.filterMap (fun k => latestFor k rs)).map klvKey = k :: K
    rw [(latestFor_key_mem hv).1, ih (fun a ha => h a (List.mem_cons_of_mem k ha))]

/-- Every input entity is dominated by its key's winner. -/
theorem latestFor_dt_ge :
    ∀ {rs : List AppImageRelease} {r : AppImageRelease}, r ∈ rs →
      ∃ v, latestFor (klvKey r) rs = some v ∧ dtOf r ≤ dtOf v := by
  intro rs
  induction rs using List.reverseRecOn with
  | nil => intro r h; exact absurd h (List.not_mem_nil r)
  | append_singleton rs x ih =>
    intro r h
    rw [List.mem_append] at h
    rw [latestFor_append]
    rcases h with h | h
    · obtain ⟨v, hv, hd⟩ := ih h
      by_cases hk : klvKey x = klvKey r
      · rw [if_pos hk, hv, stepOne]
        by_cases hlt : dtOf v < dtOf x
        · exact ⟨x, by rw [if_pos hlt], le_of_lt (lt_of_le_of_lt hd hlt)⟩
        · exact ⟨v, by rw [if_neg hlt], hd⟩
      · rw [if_neg hk]
        exact ⟨v, hv, hd⟩
    · rw [List.mem_singleton] at h
      subst h
      rw [if_pos rfl]
      rcases hacc : latestFor (klvKey r) rs with _ | old
      · exact ⟨r, by rw [stepOne], le_refl _⟩
      · rw [stepOne]
        by_cases hlt : dtOf old < dtOf r
        · exact ⟨r, by rw [if_pos hlt], le_refl _⟩
        · exact ⟨old, by rw [if_neg hlt], Nat.le_of_not_lt hlt⟩

/-- A result entity of the deduplicator with the earlier of two
timestamps, used by the concrete run below. -/
def entA : AppImageRelease :=
  { repo := "Owner/Repo", release_name := none, tag_name := none,
    published_at := "2024-05-01T10:00:00Z", appimage_name := "a.AppImage",
    download_url := "", architecture := some "x86_64",
    package_name := "io.github.owner.repo", version := "1.0.0.0" }

/-- The same entity one month later. -/
def entB : AppImageRelease := { entA with published_at := "2024-06-01T10:00:00Z" }

/-- **C7** (confirmed).  `keep_latest_versions` returns exactly one
entity per distinct `(repo, architecture)` key — the fold of the key's
entities under strict-greater replacement, so the first-inserted entity
survives ties and every input entity is dominated by its key's
representative; the output keys are pairwise distinct; and an
unparseable `published_at` is parsed as the sentinel
`2015-01-01 00:00:00`, so it always loses against any valid later
timestamp under that same strict comparison. -/
theorem c7_keep_latest_versions_characterization (results : List AppImageRelease) :
    keep_latest_versions results =
      (firstKeys results).filterMap (fun k => latestFor k results) ∧
    ((keep_latest_versions results).map klvKey).Nodup ∧
    (∀ r ∈ results, ∃ o ∈ keep_latest_versions results,
      klvKey o = klvKey r ∧ dtOf r ≤ dtOf o) ∧
    (∀ s : String, parseWireDT s = none → dtStr s = sentinelDT) := by
  refine ⟨klv_spec results, ?_, ?_, ?_⟩
  · rw [klv_spec, map_klvKey_filterMap results (firstKeys results)
      (fun k hk => (mem_firstKeys_iff k results).mp hk)]
    exact firstKeys_nodup results
  · intro r hr
    obtain ⟨v, hv, hd⟩ := latestFor_dt_ge hr
    refine ⟨v, ?_, (latestFor_key_mem hv).1, hd⟩
    rw [klv_spec, List.mem_filterMap]
    exact ⟨klvKey r, (mem_firstKeys_iff _ results).mpr (by simp [hv]), hv⟩
  · intro s h
    simp [dtStr, h]

/-- Witness for C7 at a concrete input: in `[entA, entB]` (same key,
`entB` strictly newer) the earlier entity is dominated by a stored
representative of its key. -/
theorem c7_keep_latest_versions_characterization_witness :
    entA ∈ [entA, entB] ∧
    ∃ o ∈ keep_latest_versions [entA, entB],
      klvKey o = klvKey entA ∧ dtOf entA ≤ dtOf o :=
  ⟨by decide, (c7_keep_latest_versions_characterization [entA, entB]).2.2.1 entA (by decide)⟩

/-- Entities whose key differs are skipped by the winner fold. -/
theorem latestFor_foldl_skip (k : String × Option String) :
    ∀ (L : List AppImageRelease) (acc : Option AppImageRelease),
      (∀ x ∈ L, klvKey x ≠ k) →
      L.foldl (fun acc r => if klvKey r = k then stepOne acc r else acc) acc = acc := by
  intro L
  induction L with
  | nil => intro acc _; rfl
  | cons x L ih =>
    intro acc h
    rw [List.foldl_cons, if_neg (h x (List.mem_cons_self x L))]
    exact ih acc (fun y hy => h y (List.mem_cons_of_mem x hy))

/-- The winner of a key over a winners list is the original winner. -/
theorem latestFor_filterMap (rs : List AppImageRelease) :
    ∀ K : List (String × Option String), K.Nodup →
      ∀ k, latestFor k (K.filterMap (fun a => latestFor a rs)) =
        if k ∈ K then latestFor k rs else none := by
  intro K
  induction K with
  | nil => intro _ k; simp [latestFor]
  | cons k0 K ih =>
    intro hnd k
    have hnd2 := List.nodup_cons.mp hnd
    rcases h0 : latestFor k0 rs with _ | v
    · rw [List.filterMap_cons, h0, ih hnd2.2 k]
      by_cases hk : k = k0
      · subst hk
        rw [if_neg hnd2.1, if_pos (List.mem_cons_self k K), h0]
      · by_cases hm : k ∈ K
        · rw [if_pos hm, if_pos (List.mem_cons_of_mem k0 hm)]
        · rw [if_neg hm, if_neg ?_]
          rw [List.mem_cons]
          rintro (hc | hc)
          · exact hk hc
          · exact hm hc
    · rw [List.filterMap_cons, h0]
      show latestFor k (v :: K.filterMap (fun a => latestFor a rs)) = _
      rw [latestFor, List.foldl_cons]
      by_cases hk : klvKey v = k
      · rw [if_pos hk, stepOne]
        have hkv : klvKey v = k0 := (latestFor_key_mem h0).1
        have hkk0 : k = k0 := hk ▸ hkv
        subst hkk0
        rw [latestFor_foldl_skip k _ _ ?_]
        · rw [if_pos (List.mem_cons_self k K), ← hk, hkv] at *
          rw [h0]
        · intro x hx
          obtain ⟨a, haK, ha⟩ := List.mem_filterMap.mp hx
          rw [(latestFor_key_mem ha).1]
          rw [← hk, hkv]
          exact fun hc => hnd2.1 (hc ▸ haK)
      · rw [if_neg hk]
        have := ih hnd2.2 k
        rw [latestFor] at this
        rw [this]
        have hkv : klvKey v = k0 := (latestFor_key_mem h0).1
        have hkk0 : ¬ k = k0 := fun hc => hk (hkv.trans hc.symm)
        by_cases hm : k ∈ K
        · rw [if_pos hm, if_pos (List.mem_cons_of_mem k0 hm)]
        · rw [if_neg hm, if_neg ?_]
          rw [List.mem_cons]
          rintro (hc | hc)
          · exact hkk0 hc
          · exact hm hc

/-- Re-running the winner fold over a deduplicated list changes
nothing. -/
theorem latestFor_klv (k : String × Option String) (rs : List AppImageRelease) :
    latestFor k (keep_latest_versions rs) = latestFor k rs := by
  rw [klv_spec, latestFor_filterMap rs (firstKeys rs) (firstKeys_nodup rs) k]
  by_cases hm : k ∈ firstKeys rs
  · rw [if_pos hm]
  · rw [if_neg hm]
    rcases h : latestFor k rs with _ | v
    · rfl
    · exact absurd ((mem_firstKeys_iff k rs).mpr (by simp [h])) hm

/-- On a list with pairwise-distinct keys, `firstKeys` is just the key
projection. -/
theorem firstKeys_map_klvKey :
    ∀ L : List AppImageRelease, (L.map klvKey).Nodup → firstKeys L = L.map klvKey := by
  intro L
  induction L using List.reverseRecOn with
  | nil => intro _; rfl
  | append_singleton L x ih =>
    intro hnd
    rw [List.map_append] at hnd ⊢
    have hnd2 := List.nodup_append.mp hnd
    rw [firstKeys_append, ih hnd2.1, if_neg ?_]
    · simp
    · intro hc
      exact (hnd2.2.2 hc) (by simp)

/-- Deduplication preserves the seen keys (and their order). -/
theorem firstKeys_klv (rs : List AppImageRelease) :
    firstKeys (keep_latest_versions rs) = firstKeys rs := by
  have h1 : (keep_latest_versions rs).map klvKey = firstKeys rs := by
    rw [klv_spec]
    exact map_klvKey_filterMap rs (firstKeys rs)
      (fun k hk => (mem_firstKeys_iff k rs).mp hk)
  rw [firstKeys_map_klvKey _ (h1 ▸ firstKeys_nodup rs), h1]

/-- The winner fold over an appended batch resumes from the prefix's
winner. -/
theorem latestFor_append_general (k : String × Option String)
    (X B : List AppImageRelease) :
    latestFor k (X ++ B) =
      B.foldl (fun acc r => if klvKey r = k then stepOne acc r else acc)
        (latestFor k X) := by
  rw [latestFor, latestFor, List.foldl_append]

/-- The key scan over an appended batch resumes from the prefix's
keys. -/
theorem firstKeys_append_general (X B : List AppImageRelease) :
    firstKeys (X ++ B) =
      B.foldl (fun ks r => if klvKey r ∈ ks then ks else ks ++ [klvKey r])
        (firstKeys X) := by
  rw [firstKeys, firstKeys, List.foldl_append]

/-- The central composition fact: deduplicating an already-deduplicated
prefix plus a new batch equals deduplicating the raw concatenation. -/
theorem klv_append_klv (A B : List AppImageRelease) :
    keep_latest_versions (keep_latest_versions A ++ B) =
      keep_latest_versions (A ++ B) := by
  have h1 : firstKeys (keep_latest_versions A ++ B) = firstKeys (A ++ B) := by
    rw [firstKeys_append_general, firstKeys_append_general, firstKeys_klv]
  rw [klv_spec (keep_latest_versions A ++ B), klv_spec (A ++ B), h1]
  apply List.filterMap_congr
  intro k _
  rw [latestFor_append_general, latestFor_append_general, latestFor_klv]

/-- **C8** (confirmed).  The per-file deduplication pass inside
`process_file` is equivalent to a single end-of-run pass: the pipeline's
final output equals `keep_latest_versions` applied once to the full
entity list accumulated across all files. -/
theorem c8_single_end_of_run_dedup_equivalence (startDt endDt : Nat) (inc : Bool)
    (target : Arch) (files : List (List Event)) :
    runPipeline startDt endDt inc target files =
      keep_latest_versions
        ((files.map
          (fun evs => evs.flatMap (processEvent startDt endDt inc target))).flatten) := by
  have key : ∀ (fs : List (List Event)) (A : List AppImageRelease),
      fs.foldl (fun acc evs => processFile startDt endDt inc target evs acc)
        (keep_latest_versions A) =
      keep_latest_versions (A ++
        ((fs.map (fun evs => evs.flatMap (processEvent startDt endDt inc target))).flatten)) := by
    intro fs
    induction fs with
    | nil => intro A; simp
    | cons f fs ih =>
      intro A
      rw [List.foldl_cons]
      show fs.foldl _ (processFile startDt endDt inc target f (keep_latest_versions A)) = _
      rw [processFile, klv_append_klv, ih (A ++ f.flatMap (processEvent startDt endDt inc target))]
      simp [List.append_assoc]
  have h0 : ([] : List AppImageRelease) = keep_latest_versions [] := rfl
  rw [runPipeline, h0, key files []]
  simp

/-- Deduplication never invents entities: the output is a subset of the
input. -/
theorem klv_subset {o : AppImageRelease} {rs : List AppImageRelease}
    (h : o ∈ keep_latest_versions rs) : o ∈ rs := by
  rw [klv_spec] at h
  obtain ⟨k, _, hk⟩ := List.mem_filterMap.mp h
  exact (latestFor_key_mem hk).2

/-- With checksum inclusion off, an asset kept under `aarch64` mode
matched the arm family. -/
theorem keepAsset_aarch64 {assets : List Asset} {a : Asset}
    (h : keepAsset assets false Arch.Aarch64 a = true) :
    extract_architecture (assetName a) = some "aarch64" := by
  rw [keepAsset] at h
  split at h
  · exact beq_iff_eq.mp h
  · simp at h

/-- With checksum inclusion off, every entity an event produces under
`aarch64` mode carries `Some "aarch64"`. -/
theorem processEvent_aarch64 {startDt endDt : Nat} {ev : Event}
    {e : AppImageRelease}
    (he : e ∈ processEvent startDt endDt false Arch.Aarch64 ev) :
    e.architecture = some "aarch64" := by
  rw [processEvent] at he
  dsimp only at he
  split at he
  · exact absurd he (List.not_mem_nil e)
  · split at he
    · exact absurd he (List.not_mem_nil e)
    · split at he
      · exact absurd he (List.not_mem_nil e)
      · split at he
        · exact absurd he (List.not_mem_nil e)
        · split at he
          · exact absurd he (List.not_mem_nil e)
          · split at he
            · exact absurd he (List.not_mem_nil e)
            · obtain ⟨asset, ha, rfl⟩ := List.mem_map.mp he
              have hk : keepAsset _ false Arch.Aarch64 asset = true :=
                (List.mem_filter.mp ha).2
              have harch := keepAsset_aarch64 hk
              simp [harch]

/-- **C9** (counterexample).  Under `aarch64` mode with checksum
inclusion enabled, the checksum companion `tool.sha256` passes the
filter, reaches metadata extraction, and yields an entity whose
architecture is `none` — not `Some "aarch64"`: assets reaching the
extraction stage did *not* all match `aarch64` during classification. -/
theorem c9_checksum_asset_reaches_extraction :
    (runPipeline windowStart windowEnd true Arch.Aarch64 [[evChecksumAarch64]]).map
        (fun r => r.architecture) = [some "aarch64", none] := by
  decide

/-- **C9** (amended).  With the checksum-inclusion flag disabled, every
asset that reaches metadata extraction under `aarch64` mode matched
`aarch64` during classification, the `x86_64` default is never applied,
and every entity produced by the run has architecture
`Some "aarch64"`; with checksum inclusion enabled the invariant fails
for checksum companion files. -/
theorem c9_aarch64_mode_without_checksums (startDt endDt : Nat)
    (files : List (List Event)) :
    ∀ r ∈ runPipeline startDt endDt false Arch.Aarch64 files,
      r.architecture = some "aarch64" := by
  have key : ∀ (fs : List (List Event)) (acc : List AppImageRelease),
      (∀ r ∈ acc, r.architecture = some "aarch64") →
      ∀ r ∈ fs.foldl
          (fun acc evs => processFile startDt endDt false Arch.Aarch64 evs acc) acc,
        r.architecture = some "aarch64" := by
    intro fs
    induction fs with
    | nil => intro acc h; exact h
    | cons f fs ih =>
      intro acc h
      rw [List.foldl_cons]
      apply ih
      intro r hr
      have hr2 := klv_subset hr
      rw [List.mem_append] at hr2
      rcases hr2 with hr2 | hr2
      · exact h r hr2
      · obtain ⟨ev, _, hev⟩ := List.mem_flatMap.mp hr2
        exact processEvent_aarch64 hev
  exact key files [] (fun r hr => absurd hr (List.not_mem_nil r))

/-- The single entity of the checksum-free aarch64 run below. -/
def entAarch64 : AppImageRelease :=
  { repo := "Owner/Repo", release_name := some "Release one",
    tag_name := some "r1", published_at := "2024-05-01T10:00:00Z",
    appimage_name := "tool-aarch64.AppImage", download_url := "u1",
    architecture := some "aarch64", package_name := "io.github.owner.repo",
    version := "1.0.0.0" }

/-- Witness for the amended C9 at a concrete run. -/
theorem c9_aarch64_mode_without_checksums_witness :
    entAarch64 ∈ runPipeline windowStart windowEnd false Arch.Aarch64
        [[evChecksumAarch64]] ∧
    entAarch64.architecture = some "aarch64" :=
  ⟨by decide,
   c9_aarch64_mode_without_checksums windowStart windowEnd [[evChecksumAarch64]]
     entAarch64 (by decide)⟩

end AppimageFinder
